import Mathlib

/-!
Shallow embedding of the derivative-detection engine of
`src/lib/derivative-engine.ts` (metatree repository), together with proofs
of the specification claims.  JavaScript strings are modelled as Lean
`String`s (sequences of Unicode scalars, manipulated through their
`List Char` data); `toLowerCase`/`toUpperCase` are modelled on the ASCII
range, which is the only range the engine's inputs and dictionaries use for
case mapping.
-/

namespace DerivEngine

/-- `(Char.ofNat n).toNat = n` for valid scalar values below the surrogate
range. -/
lemma toNat_ofNat_valid {n : Nat} (h : n < 55296) : (Char.ofNat n).toNat = n := by
  have hv : n.isValidChar := Or.inl h
  simp [Char.ofNat, hv, Char.ofNatAux, Char.toNat, UInt32.ofNat', UInt32.toNat]

/-- ASCII lowercasing, modelling `String.prototype.toLowerCase` on the
characters this engine manipulates. -/
def jsToLower (c : Char) : Char :=
  if 65 ≤ c.toNat ∧ c.toNat ≤ 90 then Char.ofNat (c.toNat + 32) else c

/-- ASCII uppercasing, modelling `String.prototype.toUpperCase`. -/
def jsToUpper (c : Char) : Char :=
  if 97 ≤ c.toNat ∧ c.toNat ≤ 122 then Char.ofNat (c.toNat - 32) else c

def isLowerAlpha (c : Char) : Bool := decide (97 ≤ c.toNat ∧ c.toNat ≤ 122)

def isUpperAlpha (c : Char) : Bool := decide (65 ≤ c.toNat ∧ c.toNat ≤ 90)

def isDigit (c : Char) : Bool := decide (48 ≤ c.toNat ∧ c.toNat ≤ 57)

/-- The character class `[a-z0-9]` of the `normalize` regex. -/
def isLowerAlnum (c : Char) : Bool := isLowerAlpha c || isDigit c

/-- The character class `[a-zA-Z]` used by `phoneticMatch`. -/
def isAsciiAlpha (c : Char) : Bool := isLowerAlpha c || isUpperAlpha c

/-- `normalize` on character lists:
`str.toLowerCase().replace(/[^a-z0-9]/g, '')`. -/
def normalizeL (l : List Char) : List Char :=
  (l.map jsToLower).filter isLowerAlnum

/-- Normalize text: lowercase, remove special chars (source line 14). -/
def normalize (s : String) : String := String.mk (normalizeL s.data)

lemma jsToLower_fix {c : Char} (h : isLowerAlnum c = true) : jsToLower c = c := by
  unfold isLowerAlnum isLowerAlpha isDigit at h
  simp only [Bool.or_eq_true, decide_eq_true_eq] at h
  unfold jsToLower
  rw [if_neg (by omega)]

lemma jsToLower_idem (c : Char) : jsToLower (jsToLower c) = jsToLower c := by
  by_cases h : 65 ≤ c.toNat ∧ c.toNat ≤ 90
  · have ht : (Char.ofNat (c.toNat + 32)).toNat = c.toNat + 32 :=
      toNat_ofNat_valid (by omega)
    have h1 : jsToLower c = Char.ofNat (c.toNat + 32) := by
      unfold jsToLower; rw [if_pos h]
    rw [h1]
    unfold jsToLower
    rw [if_neg (by rw [ht]; omega)]
  · have h1 : jsToLower c = c := by unfold jsToLower; rw [if_neg h]
    rw [h1]
    exact h1

/-- Lowercasing turns the ASCII letters, and only them, into lowercase
letters. -/
lemma isLowerAlpha_jsToLower (c : Char) :
    isLowerAlpha (jsToLower c) = isAsciiAlpha c := by
  by_cases h : 65 ≤ c.toNat ∧ c.toNat ≤ 90
  · have h1 : jsToLower c = Char.ofNat (c.toNat + 32) := by
      unfold jsToLower; rw [if_pos h]
    have ht : (Char.ofNat (c.toNat + 32)).toNat = c.toNat + 32 :=
      toNat_ofNat_valid (by omega)
    have hl : isLowerAlpha (Char.ofNat (c.toNat + 32)) = true := by
      unfold isLowerAlpha; rw [ht]; exact decide_eq_true (by omega)
    have hup : isUpperAlpha c = true := decide_eq_true h
    rw [h1, hl]
    unfold isAsciiAlpha
    rw [hup, Bool.or_true]
  · have h1 : jsToLower c = c := by unfold jsToLower; rw [if_neg h]
    have hu : isUpperAlpha c = false := by
      unfold isUpperAlpha; simpa using h
    rw [h1]
    unfold isAsciiAlpha
    rw [hu, Bool.or_false]

lemma normalizeL_idem (l : List Char) : normalizeL (normalizeL l) = normalizeL l := by
  unfold normalizeL
  have hmem : ∀ c ∈ (l.map jsToLower).filter isLowerAlnum, isLowerAlnum c = true := by
    intro c hc
    exact (List.mem_filter.mp hc).2
  rw [(List.map_congr_left (fun c hc => jsToLower_fix (hmem c hc))).trans (List.map_id' _),
    List.filter_eq_self.mpr hmem]

/-- C8: `normalize` is idempotent. -/
theorem normalize_idem (s : String) : normalize (normalize s) = normalize s := by
  unfold normalize
  simp [normalizeL_idem]

/-! ## Levenshtein distance (source lines 53-65)

The source fills the classic Wagner-Fischer DP matrix
(`matrix[i][j] = b[i-1] === a[j-1] ? diag : min(diag+1, left+1, up+1)`).
`levenshtein` below computes the same recurrence as a structural recursion
(`levAux` is the inner loop over the second word, with the column of the
shorter first word available through `levxs`), so that the kernel can
evaluate it. -/

def levAux (x : Char) (xs : List Char) (levxs : List Char → Nat) : List Char → Nat
  | [] => xs.length + 1
  | y :: ys =>
    if x = y then levxs ys
    else 1 + min (levxs ys) (min (levAux x xs levxs ys) (levxs (y :: ys)))

/-- Levenshtein distance with unit cost per insert/delete/substitute. -/
def levenshtein : List Char → List Char → Nat
  | [], b => b.length
  | x :: xs, b => levAux x xs (levenshtein xs) b

@[simp] lemma lev_nil_left (b : List Char) : levenshtein [] b = b.length := rfl

@[simp] lemma lev_cons_nil (x : Char) (xs : List Char) :
    levenshtein (x :: xs) [] = xs.length + 1 := rfl

lemma lev_cons_cons (x : Char) (xs : List Char) (y : Char) (ys : List Char) :
    levenshtein (x :: xs) (y :: ys) =
      if x = y then levenshtein xs ys
      else 1 + min (levenshtein xs ys)
        (min (levenshtein (x :: xs) ys) (levenshtein xs (y :: ys))) := rfl

@[simp] lemma lev_nil_right (a : List Char) : levenshtein a [] = a.length := by
  cases a <;> simp

lemma lev_self (a : List Char) : levenshtein a a = 0 := by
  induction a with
  | nil => rfl
  | cons x xs ih => rw [lev_cons_cons, if_pos rfl, ih]

lemma lev_comm (a : List Char) : ∀ b, levenshtein a b = levenshtein b a := by
  induction a with
  | nil => intro b; cases b <;> simp
  | cons x xs ih =>
    intro b
    induction b with
    | nil => simp
    | cons y ys ihb =>
      rw [lev_cons_cons, lev_cons_cons]
      by_cases h : x = y
      · subst h
        rw [if_pos rfl, if_pos rfl, ih ys]
      · have h' : ¬ y = x := fun e => h e.symm
        rw [if_neg h, if_neg h', ih ys, ih (y :: ys), ihb]
        omega

/-- Adding or removing one character on either side changes the distance
by at most one (all four inequalities at once, by strong induction on the
total length). -/
lemma lev_cons_le :
    ∀ (n : ℕ) (a b : List Char) (x y : Char), a.length + b.length ≤ n →
      levenshtein a (y :: b) ≤ 1 + levenshtein a b ∧
      levenshtein (x :: a) b ≤ 1 + levenshtein a b ∧
      levenshtein a b ≤ 1 + levenshtein a (y :: b) ∧
      levenshtein a b ≤ 1 + levenshtein (x :: a) b := by
  intro n
  induction n with
  | zero =>
    intro a b x y h
    have ha : a = [] := List.length_eq_zero.mp (by omega)
    have hb : b = [] := List.length_eq_zero.mp (by omega)
    subst ha; subst hb
    refine ⟨by simp, by simp, by simp, by simp⟩
  | succ n ih =>
    intro a b x y h
    refine ⟨?_, ?_, ?_, ?_⟩
    · cases a with
      | nil => simp only [lev_nil_left, List.length_cons]; omega
      | cons x' xs =>
        rw [lev_cons_cons]
        by_cases hx : x' = y
        · rw [if_pos hx]
          have := (ih xs b x' y (by simp at h ⊢; omega)).2.2.2
          omega
        · rw [if_neg hx]
          omega
    · cases b with
      | nil => simp only [lev_cons_nil, lev_nil_right, List.length_cons]; omega
      | cons y' ys =>
        rw [lev_cons_cons]
        by_cases hx : x = y'
        · rw [if_pos hx]
          have := (ih a ys x y' (by simp at h ⊢; omega)).2.2.1
          omega
        · rw [if_neg hx]
          omega
    · cases a with
      | nil => simp only [lev_nil_left, List.length_cons]; omega
      | cons x' xs =>
        rw [lev_cons_cons]
        by_cases hx : x' = y
        · rw [if_pos hx]
          have := (ih xs b x' y (by simp at h ⊢; omega)).2.1
          omega
        · rw [if_neg hx]
          have h1 := (ih xs b x' y (by simp at h ⊢; omega)).2.1
          have h2 := (ih xs b x' y (by simp at h ⊢; omega)).2.2.1
          omega
    · cases b with
      | nil => simp only [lev_cons_nil, lev_nil_right, List.length_cons]; omega
      | cons y' ys =>
        rw [lev_cons_cons]
        by_cases hx : x = y'
        · rw [if_pos hx]
          have := (ih a ys x y' (by simp at h ⊢; omega)).1
          omega
        · rw [if_neg hx]
          have h1 := (ih a ys x y' (by simp at h ⊢; omega)).1
          have h2 := (ih a ys x y' (by simp at h ⊢; omega)).2.2.2
          omega

lemma lev_ins_right (a b : List Char) (y : Char) :
    levenshtein a (y :: b) ≤ 1 + levenshtein a b :=
  (lev_cons_le (a.length + b.length) a b y y le_rfl).1

lemma lev_ins_left (a b : List Char) (x : Char) :
    levenshtein (x :: a) b ≤ 1 + levenshtein a b :=
  (lev_cons_le (a.length + b.length) a b x x le_rfl).2.1

lemma lev_del_right (a b : List Char) (y : Char) :
    levenshtein a b ≤ 1 + levenshtein a (y :: b) :=
  (lev_cons_le (a.length + b.length) a b y y le_rfl).2.2.1

lemma lev_del_left (a b : List Char) (x : Char) :
    levenshtein a b ≤ 1 + levenshtein (x :: a) b :=
  (lev_cons_le (a.length + b.length) a b x x le_rfl).2.2.2

lemma lev_le_sum (a : List Char) : ∀ b, levenshtein a b ≤ a.length + b.length := by
  induction a with
  | nil => intro b; simp
  | cons x xs ih =>
    intro b
    cases b with
    | nil => simp
    | cons y ys =>
      rw [lev_cons_cons]
      have := ih ys
      by_cases hx : x = y
      · rw [if_pos hx]; simp; omega
      · rw [if_neg hx]; simp; omega

lemma lev_length_bound :
    ∀ (n : ℕ) (a b : List Char), a.length + b.length ≤ n →
      b.length ≤ a.length + levenshtein a b ∧
      a.length ≤ b.length + levenshtein a b := by
  intro n
  induction n with
  | zero =>
    intro a b h
    have ha : a = [] := List.length_eq_zero.mp (by omega)
    have hb : b = [] := List.length_eq_zero.mp (by omega)
    subst ha; subst hb; simp
  | succ n ih =>
    intro a b h
    cases a with
    | nil => simp
    | cons x xs =>
      cases b with
      | nil => simp
      | cons y ys =>
        rw [lev_cons_cons]
        simp only [List.length_cons] at h ⊢
        have h1 := ih xs ys (by omega)
        have h2 := ih (x :: xs) ys (by simp; omega)
        have h3 := ih xs (y :: ys) (by simp; omega)
        simp only [List.length_cons] at h2 h3
        by_cases hx : x = y
        · rw [if_pos hx]; omega
        · rw [if_neg hx]; omega

lemma lev_tri_aux :
    ∀ (n : ℕ) (a b c : List Char), a.length + b.length + c.length ≤ n →
      levenshtein a c ≤ levenshtein a b + levenshtein b c := by
  intro n
  induction n with
  | zero =>
    intro a b c h
    have ha : a = [] := List.length_eq_zero.mp (by omega)
    have hc : c = [] := List.length_eq_zero.mp (by omega)
    subst ha; subst hc; simp
  | succ n ih =>
    intro a b c h
    cases b with
    | nil =>
      have h1 := lev_le_sum a c
      simp only [lev_nil_left, lev_nil_right]
      omega
    | cons y b' =>
      cases a with
      | nil =>
        have := (lev_length_bound ((y :: b').length + c.length) (y :: b') c le_rfl).1
        simp only [lev_nil_left, List.length_cons] at this ⊢
        omega
      | cons x a' =>
        cases c with
        | nil =>
          have := (lev_length_bound ((x :: a').length + (y :: b').length)
            (x :: a') (y :: b') le_rfl).2
          simp only [lev_cons_nil, List.length_cons] at this ⊢
          omega
        | cons z c' =>
          simp only [List.length_cons] at h
          have Eab := lev_cons_cons x a' y b'
          have Ebc := lev_cons_cons y b' z c'
          have Eac := lev_cons_cons x a' z c'
          have iA : levenshtein a' c' ≤ levenshtein a' b' + levenshtein b' c' :=
            ih a' b' c' (by omega)
          have iB : levenshtein (x :: a') c' ≤
              levenshtein (x :: a') (y :: b') + levenshtein (y :: b') c' :=
            ih (x :: a') (y :: b') c' (by simp; omega)
          have iC : levenshtein a' (z :: c') ≤
              levenshtein a' b' + levenshtein b' (z :: c') :=
            ih a' b' (z :: c') (by simp; omega)
          have iD : levenshtein (x :: a') (z :: c') ≤
              levenshtein (x :: a') b' + levenshtein b' (z :: c') :=
            ih (x :: a') b' (z :: c') (by simp; omega)
          have iE : levenshtein a' c' ≤
              levenshtein a' (y :: b') + levenshtein (y :: b') c' :=
            ih a' (y :: b') c' (by simp; omega)
          have iF : levenshtein a' (z :: c') ≤
              levenshtein a' (y :: b') + levenshtein (y :: b') (z :: c') :=
            ih a' (y :: b') (z :: c') (by simp; omega)
          have iG : levenshtein (x :: a') c' ≤
              levenshtein (x :: a') b' + levenshtein b' c' :=
            ih (x :: a') b' c' (by simp; omega)
          have c1 := lev_ins_right b' c' z
          have c2 := lev_del_right b' c' z
          have c3 := lev_ins_left b' c' y
          have c4 := lev_del_left b' c' y
          have c5 := lev_ins_left a' c' x
          have c6 := lev_del_left a' c' x
          have c7 := lev_ins_right a' c' z
          have c8 := lev_del_right a' c' z
          by_cases hxy : x = y <;> by_cases hyz : y = z <;> by_cases hxz : x = z
          · rw [if_pos hxy] at Eab; rw [if_pos hyz] at Ebc; rw [if_pos hxz] at Eac
            omega
          · exact absurd (hxy.trans hyz) hxz
          · rw [if_pos hxy] at Eab; rw [if_neg hyz] at Ebc; rw [if_pos hxz] at Eac
            omega
          · rw [if_pos hxy] at Eab; rw [if_neg hyz] at Ebc; rw [if_neg hxz] at Eac
            omega
          · exact absurd (hxz.trans hyz.symm) hxy
          · rw [if_neg hxy] at Eab; rw [if_pos hyz] at Ebc; rw [if_neg hxz] at Eac
            omega
          · rw [if_neg hxy] at Eab; rw [if_neg hyz] at Ebc; rw [if_pos hxz] at Eac
            omega
          · rw [if_neg hxy] at Eab; rw [if_neg hyz] at Ebc; rw [if_neg hxz] at Eac
            omega

/-- C9: `levenshtein` is a metric-like edit distance: symmetric, zero on
equal arguments, and satisfying the triangle inequality. -/
theorem levenshtein_metric (a b c : List Char) :
    levenshtein a b = levenshtein b a ∧ levenshtein a a = 0 ∧
      levenshtein a c ≤ levenshtein a b + levenshtein b c :=
  ⟨lev_comm a b, lev_self a,
    lev_tri_aux (a.length + b.length + c.length) a b c le_rfl⟩

/-! ## derepeat (source line 19-21)

`str.replace(/(.)\1{2,}/g, '$1$1')`.  The JavaScript `.` (without the `s`
flag) matches every character except the four line terminators, so the
regex rewrites each maximal run of three or more identical
non-line-terminator characters to two copies, and leaves everything else
(including runs of line terminators) unchanged. -/

/-- JavaScript line terminators, which `.` does not match. -/
def isLineTerm (c : Char) : Bool :=
  c = '\n' || c = '\r' || c = '\u2028' || c = '\u2029'

/-- One regex pass of `derepeat`, structured by maximal runs.  The first
argument is fuel (always at least the list length), so that the recursion
is structural and the kernel can evaluate it. -/
def derepeatF : Nat → List Char → List Char
  | 0, _ => []
  | _, [] => []
  | n + 1, c :: rest =>
    (if 2 ≤ (rest.takeWhile (· = c)).length ∧ isLineTerm c = false
      then [c, c] else c :: rest.takeWhile (· = c)) ++
      derepeatF n (rest.dropWhile (· = c))

/-- Remove repeated characters (source `derepeat`), on character lists. -/
def derepeatL (l : List Char) : List Char := derepeatF l.length l

def derepeat (s : String) : String := String.mk (derepeatL s.data)

/-- The maximal runs of identical consecutive characters of a list (fuelled
helper). -/
def runsOfF : Nat → List Char → List (List Char)
  | 0, _ => []
  | _, [] => []
  | n + 1, c :: rest =>
    (c :: rest.takeWhile (· = c)) :: runsOfF n (rest.dropWhile (· = c))

/-- The maximal runs of identical consecutive characters of a list
(spec-side description used to state what `derepeat` does). -/
def runsOf (l : List Char) : List (List Char) := runsOfF l.length l

lemma derepeatF_runs_aux :
    ∀ (n : ℕ) (l : List Char), l.length ≤ n →
      derepeatF n l =
        ((runsOfF n l).map (fun r => if isLineTerm r.headI then r else r.take 2)).flatten := by
  intro n
  induction n with
  | zero =>
    intro l h
    have : l = [] := List.length_eq_zero.mp (by omega)
    subst this
    rfl
  | succ n ih =>
    intro l h
    cases l with
    | nil => rfl
    | cons c rest =>
      have hdrop : (rest.dropWhile (· = c)).length ≤ n := by
        have := (List.dropWhile_suffix (α := Char) (· = c) (l := rest)).length_le
        simp only [List.length_cons] at h
        omega
      show (if 2 ≤ (rest.takeWhile (· = c)).length ∧ isLineTerm c = false
          then [c, c] else c :: rest.takeWhile (· = c)) ++
          derepeatF n (rest.dropWhile (· = c)) = _
      rw [runsOfF, List.map_cons, List.flatten_cons, ih _ hdrop, List.headI_cons]
      congr 1
      by_cases hlt : isLineTerm c = true
      · rw [if_pos hlt, if_neg (by simp [hlt])]
      · have hlt' : isLineTerm c = false := by simpa using hlt
        rw [if_neg (show ¬ isLineTerm c = true by simp [hlt'])]
        by_cases hlen : 2 ≤ (rest.takeWhile (· = c)).length
        · rw [if_pos ⟨hlen, hlt'⟩]
          cases hrun : rest.takeWhile (· = c) with
          | nil => rw [hrun] at hlen; simp at hlen
          | cons d ds =>
            have hd : d = c := by
              have : d ∈ rest.takeWhile (· = c) := by
                rw [hrun]; exact List.mem_cons_self d ds
              simpa using List.mem_takeWhile_imp this
            subst hd
            simp [List.take]
        · rw [if_neg (fun hA => hlen hA.1),
            List.take_of_length_le (by simp only [List.length_cons]; omega)]

/-- C5 (amended): `derepeat` collapses every maximal run of three or more
identical consecutive non-line-terminator characters down to exactly two
occurrences (never one), leaves runs of length one or two unchanged, and
leaves runs of line terminators unchanged (the source regex `.` does not
match line terminators); in particular `derepeat "peeeepe" = "peepe"`,
not `"pepe"`. -/
theorem derepeat_collapses_runs :
    (∀ l : List Char,
      derepeatL l =
        ((runsOf l).map (fun r => if isLineTerm r.headI then r else r.take 2)).flatten) ∧
    derepeat "peeeepe" = "peepe" ∧ derepeat "peeeepe" ≠ "pepe" :=
  ⟨fun l => derepeatF_runs_aux l.length l le_rfl, by decide, by decide⟩

/-- C5 counterexample: on a run of three newline characters the source
regex does not fire (JavaScript `.` does not match line terminators), so
`derepeat` leaves the run of length three unchanged instead of collapsing
it to two occurrences as the claim states for every run. -/
theorem derepeat_newline_counterexample :
    derepeat "\n\n\n" = "\n\n\n" ∧ derepeat "\n\n\n" ≠ "\n\n" :=
  ⟨by decide, by decide⟩

/-! ## Remaining string utilities (source lines 24-65 and regex helpers) -/

/-- Does `pat` occur at the start of `l`? (decidable-equality version of
`isPrefixOf`, used by the scanning helpers). -/
def startsWithL : List Char → List Char → Bool
  | [], _ => true
  | _ :: _, [] => false
  | p :: ps, c :: cs => p = c && startsWithL ps cs

def endsWithL (pat l : List Char) : Bool := startsWithL pat.reverse l.reverse

/-- `String.prototype.includes`: `pat` occurs somewhere in `l`. -/
def includesStr (pat : List Char) : List Char → Bool
  | [] => pat.isEmpty
  | c :: rest => startsWithL pat (c :: rest) || includesStr pat rest

/-- Global replacement of a fixed non-empty pattern (leftmost,
non-overlapping), as `str.replace(new RegExp(pat, 'g'), rep)` for a pattern
with no regex metacharacters.  Fuelled so the recursion is structural. -/
def replaceAllF (pat rep : List Char) : Nat → List Char → List Char
  | 0, l => l
  | _, [] => []
  | n + 1, c :: rest =>
    if startsWithL pat (c :: rest) && !pat.isEmpty then
      rep ++ replaceAllF pat rep n (rest.drop (pat.length - 1))
    else c :: replaceAllF pat rep n rest

def replaceAllL (pat rep l : List Char) : List Char := replaceAllF pat rep l.length l

/-- Replacement of only the first occurrence of a fixed pattern
(`str.replace(/pat/, rep)` without the `g` flag). -/
def replaceFirstL (pat rep : List Char) : List Char → List Char
  | [] => []
  | c :: rest =>
    if startsWithL pat (c :: rest) && !pat.isEmpty then
      rep ++ rest.drop (pat.length - 1)
    else c :: replaceFirstL pat rep rest

/-- Leet speak conversion table (source lines 24-30). -/
def deleetChar (c : Char) : Char :=
  if c = '0' then 'o' else if c = '1' then 'i' else if c = '3' then 'e'
  else if c = '4' then 'a' else if c = '5' then 's' else if c = '7' then 't'
  else if c = '8' then 'b' else if c = '@' then 'a' else if c = '$' then 's'
  else if c = '!' then 'i' else c

/-- Leet speak conversion: `"p3p3" → "pepe"` (source `deleet`). -/
def deleetL (l : List Char) : List Char := l.map deleetChar

/-- JavaScript `\s` (whitespace class). -/
def isJsSpace (c : Char) : Bool :=
  c = ' ' || c = '\t' || c = '\n' || c = '\r' || c = '\x0b' || c = '\x0c' ||
  c = '\u00a0' || c = '\u1680' || ('\u2000' ≤ c && c ≤ '\u200a') ||
  c = '\u2028' || c = '\u2029' || c = '\u202f' || c = '\u205f' ||
  c = '\u3000' || c = '\ufeff'

/-- The separator class `[\s\-_]` of `splitCompound`. -/
def isSepChar (c : Char) : Bool := isJsSpace c || c = '-' || c = '_'

/-- First `splitCompound` pass: `replace(/([a-z])([A-Z])/g, '$1 $2')`. -/
def insLowerUpper : List Char → List Char
  | a :: b :: rest =>
    if isLowerAlpha a && isUpperAlpha b then a :: ' ' :: b :: insLowerUpper rest
    else a :: insLowerUpper (b :: rest)
  | l => l

/-- Second `splitCompound` pass:
`replace(/([A-Z]+)([A-Z][a-z])/g, '$1 $2')` (fuelled scan). -/
def splitUpperRunF : Nat → List Char → List Char
  | 0, l => l
  | _, [] => []
  | n + 1, c :: rest =>
    if isUpperAlpha c then
      match rest.dropWhile isUpperAlpha with
      | d :: rest2 =>
        if 2 ≤ (c :: rest.takeWhile isUpperAlpha).length && isLowerAlpha d then
          (c :: rest.takeWhile isUpperAlpha).dropLast ++
            ' ' :: (c :: rest.takeWhile isUpperAlpha).getLastD 'A' :: d ::
            splitUpperRunF n rest2
        else (c :: rest.takeWhile isUpperAlpha) ++ splitUpperRunF n (d :: rest2)
      | [] => c :: rest.takeWhile isUpperAlpha
    else c :: splitUpperRunF n rest

/-- Split on runs of `[\s\-_]`, keeping only non-empty words (the source's
`split(/[\s\-_]+/)` followed by `filter(w => w.length > 0)`). -/
def wordsByF (p : Char → Bool) : Nat → List Char → List (List Char)
  | 0, _ => []
  | _, [] => []
  | n + 1, c :: rest =>
    if p c then wordsByF p n rest
    else (c :: rest.takeWhile (fun x => !p x)) ::
      wordsByF p n (rest.dropWhile (fun x => !p x))

/-- Split camelCase/compound: `"BabyPepeKing" → ["baby", "pepe", "king"]`
(source lines 33-40), producing lowercase word tokens. -/
def splitCompoundL (l : List Char) : List (List Char) :=
  let pass := (splitUpperRunF (insLowerUpper l).length (insLowerUpper l)).map jsToLower
  wordsByF isSepChar pass.length pass

/-- Generate n-grams (source lines 43-50). -/
def ngramsL (l : List Char) (n : Nat) : List (List Char) :=
  let s := normalizeL l
  if s.length < n then []
  else (List.range (s.length - n + 1)).map (fun i => (s.drop i).take n)

/-- Soundex digit codes (source lines 213-217). -/
def soundexCode (c : Char) : Option Char :=
  if c = 'B' || c = 'F' || c = 'P' || c = 'V' then some '1'
  else if c = 'C' || c = 'G' || c = 'J' || c = 'K' || c = 'Q' || c = 'S' ||
    c = 'X' || c = 'Z' then some '2'
  else if c = 'D' || c = 'T' then some '3'
  else if c = 'L' then some '4'
  else if c = 'M' || c = 'N' then some '5'
  else if c = 'R' then some '6'
  else none

/-- The soundex accumulation loop (source lines 222-226): append a digit
when it is defined and differs from the previous code; an uncoded letter
leaves the previous code in place (`prevCode = code || prevCode`). -/
def soundexLoop : List Char → List Char → Option Char → List Char
  | [], acc, _ => acc
  | c :: rest, acc, prev =>
    if acc.length < 4 then
      match soundexCode c with
      | some d =>
        if prev = some d then soundexLoop rest acc prev
        else soundexLoop rest (acc ++ [d]) (some d)
      | none => soundexLoop rest acc prev
    else acc

/-- Soundex (source lines 209-229). -/
def soundexL (l : List Char) : List Char :=
  match (l.map jsToUpper).filter isUpperAlpha with
  | [] => []
  | c :: rest => (soundexLoop rest [c] (soundexCode c) ++ ['0', '0', '0']).take 4

/-- `(.)\1+` collapse of consecutive duplicates to a single character, used
by `metaphone` (whose input contains only `A`-`Z`, so the line-terminator
exception of `.` cannot fire there). -/
def squeezeF : Nat → List Char → List Char
  | 0, l => l
  | _, [] => []
  | n + 1, c :: rest => c :: squeezeF n (rest.dropWhile (· = c))

def isVowel (c : Char) : Bool :=
  c = 'A' || c = 'E' || c = 'I' || c = 'O' || c = 'U'

/-- Simple Metaphone implementation (source lines 232-248), as the exact
sequence of replacements of the source. -/
def metaphoneL (l : List Char) : List Char :=
  match (l.map jsToUpper).filter isUpperAlpha with
  | [] => []
  | c0 :: rest0 =>
    let s0 : List Char := c0 :: rest0
    let s1 := if startsWithL ['K', 'N'] s0 || startsWithL ['G', 'N'] s0 ||
        startsWithL ['P', 'N'] s0 || startsWithL ['A', 'E'] s0 ||
        startsWithL ['W', 'R'] s0 then s0.drop 1 else s0
    let s2 := if endsWithL ['M', 'B'] s1 then s1.dropLast else s1
    let s3 := replaceFirstL ['X'] ['K', 'S'] s2
    let s4 := replaceAllL ['P', 'H'] ['F'] s3
    let s5 := replaceAllL ['C', 'K'] ['K'] s4
    let s6 := replaceAllL ['S', 'C', 'H'] ['S', 'K'] s5
    let s7 := replaceAllL ['G', 'H'] [] s6
    let s8 := s7.filter (fun c => !isVowel c)
    (squeezeF s8.length s8).take 4

/-- Length of the longest common prefix. -/
def commonPrefixLen : List Char → List Char → Nat
  | a :: as2, b :: bs => if a = b then 1 + commonPrefixLen as2 bs else 0
  | _, _ => 0

/-- Longest-common-substring length, the `lcs` dynamic program inside
`substringMatch` (source lines 511-525): the maximum over all pairs of
suffixes of the length of their common prefix. -/
def lcsLen (a b : List Char) : Nat :=
  (a.tails.map (fun sa => (b.tails.map (commonPrefixLen sa)).foldr max 0)).foldr max 0

/-- Character sort used to model `split('').sort().join('')` in the anagram
check (any fixed total order gives the same equality test). -/
def insertChar (c : Char) : List Char → List Char
  | [] => [c]
  | d :: rest => if c ≤ d then c :: d :: rest else d :: insertChar c rest

def sortChars : List Char → List Char
  | [] => []
  | c :: rest => insertChar c (sortChars rest)

/-! ## Detection results and curated lists (source lines 4-9, 93-112,
169-174, 354-409, 540-544) -/

structure DetectionResult where
  matched : Bool
  method : String
  confidence : Nat
  details : String
deriving DecidableEq, Inhabited

def PREFIXES : List String := [
  "baby", "mini", "micro", "nano", "mega", "giga", "ultra", "super", "hyper",
  "king", "queen", "prince", "princess", "lord", "lady", "sir", "mr", "mrs", "dr", "chief",
  "son", "daughter", "wife", "mom", "dad", "mother", "father", "bro", "sis",
  "little", "big", "fat", "slim", "rich", "poor", "happy", "sad", "angry", "mad",
  "dark", "evil", "good", "holy", "saint", "demon", "god", "devil",
  "new", "old", "og", "real", "true", "original", "fake", "based", "rare",
  "meta", "sol", "eth", "base", "on", "the", "el", "la", "le"]

def SUFFIXES : List String := [
  "2", "20", "2024", "2025", "2026", "3", "ii", "iii", "iv", "v", "jr", "sr",
  "pro", "max", "plus", "lite", "ultra", "prime", "gold", "diamond", "platinum",
  "inu", "wif", "hat", "coin", "token", "meme", "fi", "swap", "dex",
  "ai", "bot", "agent", "gpt", "x", "z",
  "army", "gang", "squad", "club", "cult", "maxi", "fam", "bros",
  "moon", "pump", "run", "runner", "chain", "verse", "world", "land",
  "classic", "remix", "reborn", "returns", "strikes", "rising", "saga",
  "sol", "eth", "base", "on", "onchain"]

def LETTER_SWAPS : List (String × String) := [
  ("o", "0"), ("i", "1"), ("e", "3"), ("a", "4"), ("s", "5"), ("b", "8"),
  ("o", "u"), ("i", "e"), ("a", "e"), ("c", "k"), ("s", "z"), ("y", "i"),
  ("ph", "f"), ("ck", "k"), ("ee", "i"), ("oo", "u"), ("er", "a"), ("or", "a"),
  ("x", "ks"), ("qu", "kw"), ("tion", "shun"), ("ght", "t")]

def THEME_ENTITIES : List (String × List String) := [
  ("pepe", ["pepe", "pep", "frog", "kek", "rare", "smug", "feels", "apu", "peepo", "pepega", "ribbit", "toad", "hoppy", "froggy", "kekius", "grok", "groyper", "honk", "clown", "honkler"]),
  ("doge", ["doge", "shiba", "shib", "inu", "kabosu", "cheems", "bonk", "doggy", "shibu", "woof", "puppy", "pupper", "doggo", "floki", "akita", "corgi", "husky", "dingo", "hachiko", "snoop"]),
  ("cat", ["cat", "kitty", "kitten", "meow", "popcat", "mog", "michi", "nyan", "catto", "gato", "pussy", "feline", "tabby", "whiskers", "paws", "grumpy", "keyboard", "simon", "garfield", "felix"]),
  ("penguin", ["penguin", "pengu", "pingu", "pudgy", "tux", "linux", "waddle", "arctic", "emperor", "adelie", "gentoo", "club", "happy feet"]),
  ("monkey", ["monkey", "ape", "chimp", "gorilla", "orangutan", "punch", "bored", "bayc", "primate", "banana", "jungle", "kong", "harambe", "baboon", "macaque", "gibbon", "simian"]),
  ("trump", ["trump", "donald", "maga", "potus", "47", "melania", "barron", "ivanka", "donaldo", "mango", "cheeto", "bigly", "yuge", "covfefe", "winning", "drumpf", "emperor", "don", "djt", "45", "republican", "gop"]),
  ("elon", ["elon", "musk", "tesla", "spacex", "x", "mars", "starship", "elun", "muск", "dojo", "neuralink", "boring", "hyperloop", "cyber", "truck", "roadster", "rocket", "technoking", "dogfather"]),
  ("ai", ["ai", "gpt", "agent", "bot", "neural", "openai", "anthropic", "llm", "claude", "chatgpt", "gemini", "bard", "copilot", "midjourney", "stable", "diffusion", "machine", "learning", "robot", "cyborg", "sentient", "agi", "singularity", "skynet", "terminator"]),
  ("goat", ["goat", "goatse", "billy", "ram", "greatest", "capricorn", "ibex", "mountain", "horns", "beard", "bleat"]),
  ("bird", ["bird", "tweet", "twitter", "eagle", "hawk", "owl", "parrot", "crow", "raven", "phoenix", "duck", "chicken", "rooster", "pigeon", "dove", "falcon", "vulture", "condor", "flamingo", "toucan", "pelican"]),
  ("bear", ["bear", "teddy", "panda", "grizzly", "polar", "koala", "bearish", "cub", "hibernation", "honey", "kodiak", "black", "brown", "spirit"]),
  ("bull", ["bull", "toro", "ox", "buffalo", "bison", "bullish", "matador", "rodeo", "horns", "charge", "stampede", "minotaur", "brahma", "angus"]),
  ("hippo", ["hippo", "moodeng", "moodang", "pygmy", "hippopotamus", "river", "horse", "hungry", "chomp", "chonk", "thicc"]),
  ("pnut", ["pnut", "peanut", "squirrel", "nut", "nuts", "acorn", "chipmunk", "nutty", "cashew", "almond", "walnut", "hazel"]),
  ("wif", ["wif", "hat", "dogwifhat", "catwif", "with", "wearing", "helmet", "cap", "beanie", "fedora", "tophat", "sombrero"]),
  ("wojak", ["wojak", "wojack", "soyjak", "feels", "brainlet", "pink", "doomer", "bloomer", "zoomer", "boomer", "coomer", "glow", "npc", "chad", "virgin", "gigachad", "sigma", "alpha", "beta", "trad", "based", "redpill"]),
  ("moon", ["moon", "lunar", "moonboy", "mooning", "tomoon", "apollo", "crater", "tide", "wolf", "harvest", "eclipse", "fullmoon", "moonshot", "moonwalk"]),
  ("alien", ["alien", "aliens", "ufo", "extraterrestrial", "et", "area51", "roswell", "grey", "greys", "grays", "abduction", "spaceship", "martian", "xfiles", "contact", "disclosure", "seti", "firstcontact", "invasion", "probe", "mothership", "reptilian", "pleiadian", "nordic", "annunaki", "nibiru"]),
  ("anime", ["anime", "manga", "waifu", "senpai", "kawaii", "otaku", "weeb", "neko", "chan", "kun", "san", "sama", "desu", "baka", "sugoi", "naruto", "goku", "hentai", "loli", "chibi"]),
  ("china", ["china", "chinese", "dragon", "panda", "bamboo", "jade", "kung", "wushu", "shaolin", "yin", "yang", "dynasty", "emperor", "mandarin", "beijing", "shanghai", "xi", "ccp", "yuan", "rmb"]),
  ("korea", ["korea", "korean", "kimchi", "kpop", "seoul", "gangnam", "oppa", "noona", "hyung", "aegyo", "hallyu", "bibimbap", "soju", "hanbok"]),
  ("food", ["food", "burger", "pizza", "taco", "sushi", "ramen", "noodle", "rice", "bread", "cheese", "bacon", "egg", "chicken", "beef", "pork", "fish", "shrimp", "lobster", "crab", "steak", "fries", "hotdog", "sandwich", "soup", "salad"]),
  ("drink", ["coffee", "tea", "beer", "wine", "whiskey", "vodka", "rum", "tequila", "sake", "champagne", "cocktail", "juice", "soda", "cola", "pepsi", "coke", "water", "milk", "boba", "bubble"]),
  ("drugs", ["weed", "cannabis", "marijuana", "420", "blunt", "joint", "dank", "kush", "sativa", "indica", "thc", "cbd", "stoner", "high", "baked", "lit", "blazed", "shroom", "psychedelic", "acid", "lsd", "dmt", "molly", "mdma"]),
  ("money", ["money", "cash", "dollar", "usd", "euro", "pound", "yen", "gold", "silver", "diamond", "rich", "wealth", "million", "billion", "trillion", "bank", "vault", "treasury", "fed", "reserve", "print", "brrrr"]),
  ("gaming", ["game", "gamer", "gaming", "esport", "twitch", "stream", "xbox", "playstation", "nintendo", "mario", "zelda", "pokemon", "pikachu", "sonic", "minecraft", "fortnite", "roblox", "valorant", "league", "dota", "csgo", "cod", "gta", "fifa"]),
  ("meme", ["meme", "dank", "based", "cringe", "kek", "lol", "lmao", "rofl", "bruh", "sus", "amogus", "imposter", "yeet", "poggers", "copium", "hopium", "ngmi", "wagmi", "gm", "gn", "ser", "fren", "anon"])]

def DERIVATIVE_KEYWORDS : List String := [
  "baby", "mini", "king", "queen", "son", "daughter", "wife", "mother", "father",
  "revenge", "returns", "reborn", "rising", "strikes", "saga", "classic",
  "2.0", "pro", "max", "ultra", "super", "mega", "giga"]

/-! ## The 12 detection methods (source lines 68-568) -/

/-- Layer 1: direct containment (source lines 68-90). -/
def directMatch (runnerName runnerSymbol tokenName tokenSymbol : String) :
    DetectionResult :=
  let _ := runnerName
  let rSym := normalizeL runnerSymbol.data
  let tSym := normalizeL tokenSymbol.data
  let tName := normalizeL tokenName.data
  if rSym = tSym then ⟨false, "direct", 0, ""⟩
  else if 3 ≤ rSym.length ∧ includesStr rSym tSym then
    ⟨true, "direct", 98, tokenSymbol ++ " contains " ++ runnerSymbol⟩
  else if 3 ≤ rSym.length ∧ includesStr rSym tName then
    ⟨true, "direct", 95, "\"" ++ tokenName ++ "\" contains " ++ runnerSymbol⟩
  else ⟨false, "direct", 0, ""⟩

/-- Layer 2: pattern matching with curated prefix/suffix lists (source
lines 114-138). -/
def patternMatch (runnerSymbol tokenName tokenSymbol : String) : DetectionResult :=
  let rSym := normalizeL runnerSymbol.data
  let tSym := normalizeL tokenSymbol.data
  let tName := normalizeL tokenName.data
  if rSym = tSym ∨ rSym.length < 2 then ⟨false, "pattern", 0, ""⟩
  else
    match PREFIXES.find? (fun p => tSym = p.data ++ rSym || tName = p.data ++ rSym) with
    | some p => ⟨true, "pattern", 94, p ++ "+" ++ runnerSymbol⟩
    | none =>
      match SUFFIXES.find? (fun suf => tSym = rSym ++ suf.data || tName = rSym ++ suf.data) with
      | some suf => ⟨true, "pattern", 94, runnerSymbol ++ "+" ++ suf⟩
      | none => ⟨false, "pattern", 0, ""⟩

/-- Layer 3: word boundary (source lines 141-166). -/
def wordBoundaryMatch (runnerSymbol tokenName tokenSymbol : String) : DetectionResult :=
  let rSym := normalizeL runnerSymbol.data
  let tSym := normalizeL tokenSymbol.data
  let tName := normalizeL tokenName.data
  if rSym = tSym ∨ rSym.length < 2 then ⟨false, "boundary", 0, ""⟩
  else if (splitCompoundL (tokenName ++ " " ++ tokenSymbol).data).contains rSym then
    ⟨true, "boundary", 92, "contains word \"" ++ runnerSymbol ++ "\""⟩
  else
    let startsW := startsWithL rSym tSym || startsWithL rSym tName
    let endsW := endsWithL rSym tSym || endsWithL rSym tName
    if startsW || endsW then
      ⟨true, "boundary", 90,
        (if startsW then "starts" else "ends") ++ " with " ++ runnerSymbol⟩
    else ⟨false, "boundary", 0, ""⟩

/-- Layer 4: misspelling detection (source lines 176-206). -/
def misspellingMatch (runnerSymbol tokenSymbol : String) : DetectionResult :=
  let rSym := normalizeL runnerSymbol.data
  let tSym := normalizeL tokenSymbol.data
  if rSym = tSym ∨ rSym.length < 3 then ⟨false, "misspelling", 0, ""⟩
  else if rSym.length > tSym.length + 2 ∨ tSym.length > rSym.length + 2 then
    ⟨false, "misspelling", 0, ""⟩
  else
    match LETTER_SWAPS.find? (fun pr =>
        replaceAllL pr.1.data pr.2.data rSym = tSym ||
        replaceAllL pr.2.data pr.1.data rSym = tSym) with
    | some pr => ⟨true, "misspelling", 90, pr.1 ++ "<->" ++ pr.2 ++ " swap"⟩
    | none =>
      let dist := levenshtein rSym tSym
      if dist = 1 ∧ 3 ≤ rSym.length then ⟨true, "misspelling", 88, "1 char difference"⟩
      else if dist = 2 ∧ 5 ≤ rSym.length then ⟨true, "misspelling", 78, "2 char difference"⟩
      else ⟨false, "misspelling", 0, ""⟩

/-- Layer 5: phonetic, soundex + metaphone (source lines 250-286). -/
def phoneticMatch (runnerName runnerSymbol tokenName tokenSymbol : String) :
    DetectionResult :=
  let rSym := runnerSymbol.data.filter isAsciiAlpha
  let tSym := tokenSymbol.data.filter isAsciiAlpha
  if rSym.length < 3 ∨ tSym.length < 3 then ⟨false, "phonetic", 0, ""⟩
  else if rSym.map jsToLower = tSym.map jsToLower then ⟨false, "phonetic", 0, ""⟩
  else
    let symRes : Option DetectionResult :=
      if jsToLower (rSym.headD ' ') = jsToLower (tSym.headD ' ') then
        if soundexL rSym = soundexL tSym then
          some ⟨true, "phonetic", 85, "soundex match"⟩
        else if metaphoneL rSym = metaphoneL tSym then
          some ⟨true, "phonetic", 83, "metaphone match"⟩
        else none
      else none
    match symRes with
    | some r => r
    | none =>
      let rNameWord := (runnerName.data.takeWhile (fun c => !isJsSpace c)).filter isAsciiAlpha
      let tNameWord := (tokenName.data.takeWhile (fun c => !isJsSpace c)).filter isAsciiAlpha
      if 4 ≤ rNameWord.length ∧ 4 ≤ tNameWord.length then
        if jsToLower (rNameWord.headD ' ') = jsToLower (tNameWord.headD ' ') then
          if soundexL rNameWord = soundexL tNameWord ∨
              metaphoneL rNameWord = metaphoneL tNameWord then
            ⟨true, "phonetic", 80, "name sounds similar"⟩
          else ⟨false, "phonetic", 0, ""⟩
        else ⟨false, "phonetic", 0, ""⟩
      else ⟨false, "phonetic", 0, ""⟩

/-- Layer 6: leet speak / repeated chars (source lines 289-317). -/
def leetMatch (runnerSymbol tokenSymbol : String) : DetectionResult :=
  let rSym := normalizeL runnerSymbol.data
  let tSym := tokenSymbol.data.map jsToLower
  if rSym = normalizeL tSym ∨ rSym.length < 3 then ⟨false, "leet", 0, ""⟩
  else if normalizeL (deleetL tSym) = rSym then
    ⟨true, "leet", 88, "leet speak conversion"⟩
  else if normalizeL (derepeatL tSym) = rSym then
    ⟨true, "leet", 86, "repeated chars removed"⟩
  else if normalizeL (derepeatL (deleetL tSym)) = rSym then
    ⟨true, "leet", 84, "leet + repeated chars"⟩
  else ⟨false, "leet", 0, ""⟩

/-- Layer 7: n-gram (trigram) overlap (source lines 320-351).  The float
comparison `overlap / max ≥ 0.7` and the confidence
`Math.round(75 + similarity * 20)` are modelled by exact rational
arithmetic: `round(75 + 20*o/m) = (151*m + 40*o) / (2*m)` in natural
division (for the small integer sizes involved the double computation of
the source agrees with the exact value). -/
def ngramMatch (runnerSymbol tokenSymbol : String) : DetectionResult :=
  let rSym := normalizeL runnerSymbol.data
  let tSym := normalizeL tokenSymbol.data
  if rSym = tSym ∨ rSym.length < 4 ∨ tSym.length < 4 then ⟨false, "ngram", 0, ""⟩
  else
    let rGrams := (ngramsL rSym 3).dedup
    let tGrams := (ngramsL tSym 3).dedup
    if rGrams.length = 0 ∨ tGrams.length = 0 then ⟨false, "ngram", 0, ""⟩
    else
      let overlap := rGrams.countP (fun g => tGrams.contains g)
      let m := max rGrams.length tGrams.length
      if 7 * m ≤ 10 * overlap then
        ⟨true, "ngram", (151 * m + 40 * overlap) / (2 * m),
          Nat.repr ((200 * overlap + m) / (2 * m)) ++ "% trigram overlap"⟩
      else ⟨false, "ngram", 0, ""⟩

/-- Layer 9: fuzzy string similarity (source lines 452-470), with
`1 - dist/maxLen ≥ 0.8` and `Math.round(similarity * 95)` modelled by the
exact rationals `4*m ≤ 5*(m - dist)` and `(190*(m-dist) + m) / (2*m)`. -/
def fuzzyMatch (runnerSymbol tokenSymbol : String) : DetectionResult :=
  let rSym := normalizeL runnerSymbol.data
  let tSym := normalizeL tokenSymbol.data
  if rSym = tSym ∨ rSym.length < 4 then ⟨false, "fuzzy", 0, ""⟩
  else
    let m := max rSym.length tSym.length
    let dist := levenshtein rSym tSym
    if 4 * m ≤ 5 * (m - dist) then
      ⟨true, "fuzzy", (190 * (m - dist) + m) / (2 * m),
        Nat.repr ((200 * (m - dist) + m) / (2 * m)) ++ "% similar"⟩
    else ⟨false, "fuzzy", 0, ""⟩

/-- Layer 10: reverse / anagram (source lines 473-496). -/
def reverseMatch (runnerSymbol tokenSymbol : String) : DetectionResult :=
  let rSym := normalizeL runnerSymbol.data
  let tSym := normalizeL tokenSymbol.data
  if rSym = tSym ∨ rSym.length < 3 then ⟨false, "reverse", 0, ""⟩
  else if rSym.reverse = tSym then ⟨true, "reverse", 82, "reversed spelling"⟩
  else if sortChars rSym = sortChars tSym ∧ rSym ≠ tSym then
    ⟨true, "reverse", 75, "anagram"⟩
  else ⟨false, "reverse", 0, ""⟩

/-- Layer 11: substring ratio (source lines 499-537), with
`ratio = best/len ≥ 0.75` and `Math.round(70 + ratio * 20)` modelled by
`3*len ≤ 4*best` and `(141*len + 40*best) / (2*len)`. -/
def substringMatch (runnerSymbol tokenSymbol tokenName : String) : DetectionResult :=
  let rSym := normalizeL runnerSymbol.data
  let tSym := normalizeL tokenSymbol.data
  let tName := normalizeL tokenName.data
  if rSym = tSym ∨ rSym.length < 3 then ⟨false, "substring", 0, ""⟩
  else
    let best := max (lcsLen rSym tSym) (lcsLen rSym tName)
    if 3 * rSym.length ≤ 4 * best ∧ 3 ≤ best then
      ⟨true, "substring", (141 * rSym.length + 40 * best) / (2 * rSym.length),
        Nat.repr best ++ "/" ++ Nat.repr rSym.length ++ " chars match"⟩
    else ⟨false, "substring", 0, ""⟩

/-- `getThemes` (source lines 411-422): all themes with at least one
keyword occurring in the lowercased text whose characters outside
`[a-z0-9\s]` have been replaced by spaces. -/
def getThemes (text : String) : List String :=
  let lower := (text.data.map jsToLower).map
    (fun c => if isLowerAlnum c || isJsSpace c then c else ' ')
  THEME_ENTITIES.filterMap (fun p =>
    if p.2.any (fun kw => includesStr kw.data lower) then some p.1 else none)

/-- Layer 8: theme/entity matching (source lines 424-449). -/
def themeMatch (runnerName runnerSymbol tokenName tokenSymbol : String) :
    DetectionResult :=
  let runnerThemes := getThemes (runnerName ++ " " ++ runnerSymbol)
  let tokenThemes := getThemes (tokenName ++ " " ++ tokenSymbol)
  let shared := runnerThemes.filter (fun t => tokenThemes.contains t)
  if shared.isEmpty then ⟨false, "theme", 0, ""⟩
  else
    let runnerText := (runnerName ++ " " ++ runnerSymbol).data.map jsToLower
    let isMain := shared.any (fun th =>
      match THEME_ENTITIES.lookup th with
      | some kws => includesStr (kws.headD "").data runnerText
      | none => false)
    if isMain then
      ⟨true, "theme", 72, "same theme: " ++ String.intercalate ", " shared⟩
    else ⟨false, "theme", 0, ""⟩

/-- Layer 12: common derivative indicators (source lines 546-568): a
derivative keyword occurs in the candidate text and some compound word of
the candidate (length at least 3) occurs inside the runner symbol. -/
def derivativeKeywordMatch (runnerSymbol tokenName tokenSymbol : String) :
    DetectionResult :=
  let rSym := runnerSymbol.data.map jsToLower
  let text := (tokenName ++ " " ++ tokenSymbol).data.map jsToLower
  match DERIVATIVE_KEYWORDS.find? (fun kw => includesStr kw.data text),
      (splitCompoundL text).find? (fun w => 3 ≤ w.length && includesStr w rSym) with
  | some kw, some w =>
    ⟨true, "keyword", 78, "\"" ++ kw ++ "\" + \"" ++ String.mk w ++ "\""⟩
  | _, _ => ⟨false, "keyword", 0, ""⟩

/-! ## Master detection function (source lines 571-633) -/

structure FullDetectionResult where
  isDerivative : Bool
  bestMethod : String
  confidence : Nat
  details : String
  allMatches : List DetectionResult
  methodCount : Nat
deriving DecidableEq, Inhabited

def noDetection : FullDetectionResult := ⟨false, "none", 0, "", [], 0⟩

/-- The list of the 12 detection method results, in source order. -/
def runAllMethods (runnerName runnerSymbol tokenName tokenSymbol : String) :
    List DetectionResult :=
  [directMatch runnerName runnerSymbol tokenName tokenSymbol,
   patternMatch runnerSymbol tokenName tokenSymbol,
   wordBoundaryMatch runnerSymbol tokenName tokenSymbol,
   misspellingMatch runnerSymbol tokenSymbol,
   phoneticMatch runnerName runnerSymbol tokenName tokenSymbol,
   leetMatch runnerSymbol tokenSymbol,
   ngramMatch runnerSymbol tokenSymbol,
   fuzzyMatch runnerSymbol tokenSymbol,
   reverseMatch runnerSymbol tokenSymbol,
   substringMatch runnerSymbol tokenSymbol tokenName,
   themeMatch runnerName runnerSymbol tokenName tokenSymbol,
   derivativeKeywordMatch runnerSymbol tokenName tokenSymbol]

/-- Descending-confidence comparison used for
`matches.sort((a, b) => b.confidence - a.confidence)`. -/
def confGe (a b : DetectionResult) : Prop := b.confidence ≤ a.confidence

instance : DecidableRel confGe := fun _ _ => Nat.decLe _ _

instance : IsTotal DetectionResult confGe :=
  ⟨fun a b => le_total b.confidence a.confidence⟩

instance : IsTrans DetectionResult confGe :=
  ⟨fun _ _ _ h1 h2 => le_trans h2 h1⟩

/-- The reduction of the 12 results (source lines 602-632): keep the
matched ones, sort by confidence descending, take the best, and boost by
method agreement, clamping at 99. -/
def fuseResults (results : List DetectionResult) : FullDetectionResult :=
  let hits := results.filter (fun r => r.matched)
  if hits.isEmpty then noDetection
  else
    match List.insertionSort confGe hits with
    | [] => noDetection
    | best :: rest =>
      let n := hits.length
      ⟨true, best.method,
        if 4 ≤ n then min 99 (best.confidence + 8)
        else if 3 ≤ n then min 99 (best.confidence + 5)
        else if 2 ≤ n then min 99 (best.confidence + 2)
        else best.confidence,
        best.details, best :: rest, n⟩

/-- Master detection function (source `detectDerivative`). -/
def detectDerivative (runnerName runnerSymbol tokenName tokenSymbol : String) :
    FullDetectionResult :=
  fuseResults (runAllMethods runnerName runnerSymbol tokenName tokenSymbol)

/-! ## Batch detection (source lines 636-687) -/

structure TokenInfo where
  id : String
  name : String
  symbol : String
  marketCap : Nat
deriving DecidableEq, Inhabited

structure DerivativeMatch where
  token : TokenInfo
  runner : TokenInfo
  method : String
  confidence : Nat
  details : String
  methodCount : Nat
deriving DecidableEq, Inhabited

def mkMatch (token runner : TokenInfo) (r : FullDetectionResult) : DerivativeMatch :=
  ⟨token, runner, r.bestMethod, r.confidence, r.details, r.methodCount⟩

/-- The inner loop of `findDerivatives` over the runners for one candidate
token: skip the candidate itself by id, and keep the strictly best
positive detection (first runner wins ties). -/
def bestForLoop (token : TokenInfo) :
    List TokenInfo → Option DerivativeMatch → Option DerivativeMatch
  | [], acc => acc
  | runner :: rest, acc =>
    if runner.id = token.id then bestForLoop token rest acc
    else
      let res := detectDerivative runner.name runner.symbol token.name token.symbol
      if res.isDerivative then
        match acc with
        | none => bestForLoop token rest (some (mkMatch token runner res))
        | some b =>
          if b.confidence < res.confidence then
            bestForLoop token rest (some (mkMatch token runner res))
          else bestForLoop token rest (some b)
      else bestForLoop token rest acc

def matchGe (a b : DerivativeMatch) : Prop := b.confidence ≤ a.confidence

instance : DecidableRel matchGe := fun _ _ => Nat.decLe _ _

instance : IsTotal DerivativeMatch matchGe :=
  ⟨fun a b => le_total b.confidence a.confidence⟩

instance : IsTrans DerivativeMatch matchGe :=
  ⟨fun _ _ _ h1 h2 => le_trans h2 h1⟩

/-- Batch detection (source `findDerivatives`): one best match per
candidate that has one, sorted by confidence descending. -/
def findDerivatives (runners tokens : List TokenInfo) : List DerivativeMatch :=
  List.insertionSort matchGe
    (tokens.filterMap (fun token => bestForLoop token runners none))

/-! ## Per-method confidence bounds

Every matched `DetectionResult` carries a confidence between 72 (theme)
and 98 (direct symbol containment). -/

lemma foldrMax_le {l : List Nat} {c : Nat} (h : ∀ x ∈ l, x ≤ c) :
    l.foldr max 0 ≤ c := by
  induction l with
  | nil => exact Nat.zero_le c
  | cons x rest ih =>
    simp only [List.foldr_cons]
    exact Nat.max_le.mpr ⟨h x (List.mem_cons_self x rest),
      ih (fun y hy => h y (List.mem_cons_of_mem x hy))⟩

lemma le_foldrMax {l : List Nat} {x : Nat} (h : x ∈ l) : x ≤ l.foldr max 0 := by
  induction l with
  | nil => cases h
  | cons y rest ih =>
    simp only [List.foldr_cons]
    rcases List.mem_cons.mp h with rfl | h'
    · exact le_max_left _ _
    · exact le_trans (ih h') (le_max_right _ _)

lemma commonPrefixLen_le_left : ∀ a b : List Char, commonPrefixLen a b ≤ a.length := by
  intro a
  induction a with
  | nil => intro b; cases b <;> simp [commonPrefixLen]
  | cons x xs ih =>
    intro b
    cases b with
    | nil => simp [commonPrefixLen]
    | cons y ys =>
      unfold commonPrefixLen
      split
      · have := ih ys
        simp only [List.length_cons]
        omega
      · simp

lemma lcsLen_le_left (a b : List Char) : lcsLen a b ≤ a.length := by
  apply foldrMax_le
  intro x hx
  rcases List.mem_map.mp hx with ⟨sa, hsa, rfl⟩
  apply foldrMax_le
  intro y hy
  rcases List.mem_map.mp hy with ⟨sb, hsb, rfl⟩
  exact le_trans (commonPrefixLen_le_left sa sb)
    (List.IsSuffix.length_le ((List.mem_tails _ _).mp hsa))

lemma ngram_div_bounds {m o : Nat} (hm : 0 < m) (ho : o ≤ m) (h7 : 7 * m ≤ 10 * o) :
    89 ≤ (151 * m + 40 * o) / (2 * m) ∧ (151 * m + 40 * o) / (2 * m) ≤ 95 := by
  constructor
  · rw [Nat.le_div_iff_mul_le (by omega)]
    omega
  · have : (151 * m + 40 * o) / (2 * m) < 96 := by
      rw [Nat.div_lt_iff_lt_mul (by omega)]
      omega
    omega

lemma fuzzy_div_bounds {m d : Nat} (hm : 0 < m) (h4 : 4 * m ≤ 5 * (m - d)) :
    76 ≤ (190 * (m - d) + m) / (2 * m) ∧ (190 * (m - d) + m) / (2 * m) ≤ 95 := by
  have hmd : m - d ≤ m := Nat.sub_le m d
  constructor
  · rw [Nat.le_div_iff_mul_le (by omega)]
    omega
  · have : (190 * (m - d) + m) / (2 * m) < 96 := by
      rw [Nat.div_lt_iff_lt_mul (by omega)]
      omega
    omega

lemma substring_div_bounds {L b : Nat} (hL : 0 < L) (hb : b ≤ L) (h3 : 3 * L ≤ 4 * b) :
    85 ≤ (141 * L + 40 * b) / (2 * L) ∧ (141 * L + 40 * b) / (2 * L) ≤ 90 := by
  constructor
  · rw [Nat.le_div_iff_mul_le (by omega)]
    omega
  · have : (141 * L + 40 * b) / (2 * L) < 91 := by
      rw [Nat.div_lt_iff_lt_mul (by omega)]
      omega
    omega

lemma directMatch_bounds (a b c d : String) :
    (directMatch a b c d).matched = true →
    72 ≤ (directMatch a b c d).confidence ∧ (directMatch a b c d).confidence ≤ 98 := by
  unfold directMatch
  dsimp only
  repeat' split
  all_goals intro h
  all_goals simp_all

lemma patternMatch_bounds (a b c : String) :
    (patternMatch a b c).matched = true →
    72 ≤ (patternMatch a b c).confidence ∧ (patternMatch a b c).confidence ≤ 98 := by
  unfold patternMatch
  dsimp only
  repeat' split
  all_goals intro h
  all_goals simp_all

lemma wordBoundaryMatch_bounds (a b c : String) :
    (wordBoundaryMatch a b c).matched = true →
    72 ≤ (wordBoundaryMatch a b c).confidence ∧
      (wordBoundaryMatch a b c).confidence ≤ 98 := by
  unfold wordBoundaryMatch
  dsimp only
  repeat' split
  all_goals intro h
  all_goals simp_all

lemma misspellingMatch_bounds (a b : String) :
    (misspellingMatch a b).matched = true →
    72 ≤ (misspellingMatch a b).confidence ∧ (misspellingMatch a b).confidence ≤ 98 := by
  unfold misspellingMatch
  dsimp only
  repeat' split
  all_goals intro h
  all_goals simp_all

lemma phoneticMatch_bounds (a b c d : String) :
    (phoneticMatch a b c d).matched = true →
    72 ≤ (phoneticMatch a b c d).confidence ∧
      (phoneticMatch a b c d).confidence ≤ 98 := by
  unfold phoneticMatch
  dsimp only
  repeat' split
  all_goals intro h
  all_goals try simp_all
  all_goals rename_i heq
  all_goals obtain ⟨-, heq⟩ := heq
  all_goals split at heq
  all_goals try simp_all
  all_goals try (obtain ⟨-, heq⟩ := heq)
  all_goals try subst heq
  all_goals exact ⟨by norm_num, by norm_num⟩

lemma leetMatch_bounds (a b : String) :
    (leetMatch a b).matched = true →
    72 ≤ (leetMatch a b).confidence ∧ (leetMatch a b).confidence ≤ 98 := by
  unfold leetMatch
  dsimp only
  repeat' split
  all_goals intro h
  all_goals simp_all

lemma ngramMatch_bounds (a b : String) :
    (ngramMatch a b).matched = true →
    72 ≤ (ngramMatch a b).confidence ∧ (ngramMatch a b).confidence ≤ 98 := by
  unfold ngramMatch
  dsimp only
  split
  · intro h; simp at h
  · split
    · intro h; simp at h
    · split
      · rename_i hne h7
        intro _
        have hm : 0 < max ((ngramsL (normalizeL a.data) 3).dedup).length
            ((ngramsL (normalizeL b.data) 3).dedup).length := by
          rcases Nat.eq_zero_or_pos ((ngramsL (normalizeL a.data) 3).dedup).length with h0 | h0
          · exact absurd (Or.inl h0) hne
          · exact lt_of_lt_of_le h0 (le_max_left _ _)
        have ho : ((ngramsL (normalizeL a.data) 3).dedup).countP
            (fun g => ((ngramsL (normalizeL b.data) 3).dedup).contains g) ≤
            max ((ngramsL (normalizeL a.data) 3).dedup).length
              ((ngramsL (normalizeL b.data) 3).dedup).length :=
          le_trans (List.countP_le_length _) (le_max_left _ _)
        have hbounds := ngram_div_bounds hm ho h7
        exact ⟨le_trans (by norm_num) hbounds.1, le_trans hbounds.2 (by norm_num)⟩
      · intro h; simp at h

lemma fuzzyMatch_bounds (a b : String) :
    (fuzzyMatch a b).matched = true →
    72 ≤ (fuzzyMatch a b).confidence ∧ (fuzzyMatch a b).confidence ≤ 98 := by
  unfold fuzzyMatch
  dsimp only
  split
  · intro h; simp at h
  · rename_i hguard
    split
    · rename_i h4
      intro _
      have hm : 0 < max (normalizeL a.data).length (normalizeL b.data).length := by
        push_neg at hguard
        have h1 := hguard.2
        have h2 := le_max_left (normalizeL a.data).length (normalizeL b.data).length
        omega
      have hbounds := fuzzy_div_bounds hm h4
      exact ⟨le_trans (by norm_num) hbounds.1, le_trans hbounds.2 (by norm_num)⟩
    · intro h; simp at h

lemma reverseMatch_bounds (a b : String) :
    (reverseMatch a b).matched = true →
    72 ≤ (reverseMatch a b).confidence ∧ (reverseMatch a b).confidence ≤ 98 := by
  unfold reverseMatch
  dsimp only
  repeat' split
  all_goals intro h
  all_goals simp_all

lemma substringMatch_bounds (a b c : String) :
    (substringMatch a b c).matched = true →
    72 ≤ (substringMatch a b c).confidence ∧
      (substringMatch a b c).confidence ≤ 98 := by
  unfold substringMatch
  dsimp only
  split
  · intro h; simp at h
  · rename_i hguard
    split
    · rename_i h3
      intro _
      have hL : 0 < (normalizeL a.data).length := by
        push_neg at hguard
        have := hguard.2
        omega
      have hb : max (lcsLen (normalizeL a.data) (normalizeL b.data))
          (lcsLen (normalizeL a.data) (normalizeL c.data)) ≤
          (normalizeL a.data).length :=
        max_le (lcsLen_le_left _ _) (lcsLen_le_left _ _)
      have hbounds := substring_div_bounds hL hb h3.1
      exact ⟨le_trans (by norm_num) hbounds.1, le_trans hbounds.2 (by norm_num)⟩
    · intro h; simp at h

lemma themeMatch_bounds (a b c d : String) :
    (themeMatch a b c d).matched = true →
    72 ≤ (themeMatch a b c d).confidence ∧ (themeMatch a b c d).confidence ≤ 98 := by
  unfold themeMatch
  dsimp only
  repeat' split
  all_goals intro h
  all_goals simp_all

lemma derivativeKeywordMatch_bounds (a b c : String) :
    (derivativeKeywordMatch a b c).matched = true →
    72 ≤ (derivativeKeywordMatch a b c).confidence ∧
      (derivativeKeywordMatch a b c).confidence ≤ 98 := by
  unfold derivativeKeywordMatch
  dsimp only
  repeat' split
  all_goals intro h
  all_goals simp_all

lemma runAllMethods_bounds (rn rs tn ts : String) :
    ∀ r ∈ runAllMethods rn rs tn ts, r.matched = true →
      72 ≤ r.confidence ∧ r.confidence ≤ 98 := by
  intro r hr
  simp only [runAllMethods, List.mem_cons, List.not_mem_nil, or_false] at hr
  rcases hr with rfl | rfl | rfl | rfl | rfl | rfl | rfl | rfl | rfl | rfl | rfl | rfl
  · exact directMatch_bounds rn rs tn ts
  · exact patternMatch_bounds rs tn ts
  · exact wordBoundaryMatch_bounds rs tn ts
  · exact misspellingMatch_bounds rs ts
  · exact phoneticMatch_bounds rn rs tn ts
  · exact leetMatch_bounds rs ts
  · exact ngramMatch_bounds rs ts
  · exact fuzzyMatch_bounds rs ts
  · exact reverseMatch_bounds rs ts
  · exact substringMatch_bounds rs ts tn
  · exact themeMatch_bounds rn rs tn ts
  · exact derivativeKeywordMatch_bounds rs tn ts

/-! ## Signal fusion: confidence formula and range -/

/-- The highest per-method confidence of a list of results. -/
def maxConf (l : List DetectionResult) : Nat :=
  (l.map (fun r => r.confidence)).foldr max 0

/-- The agreement bonus of the master detector: +8 for at least 4 matched
methods, +5 for exactly 3, +2 for exactly 2, +0 for a single one. -/
def agreementBonus (n : Nat) : Nat :=
  if 4 ≤ n then 8 else if 3 ≤ n then 5 else if 2 ≤ n then 2 else 0

lemma fuseResults_of_empty {results : List DetectionResult}
    (h : results.filter (fun r => r.matched) = []) :
    fuseResults results = noDetection := by
  unfold fuseResults
  dsimp only
  rw [if_pos (by rw [h]; rfl)]

lemma fuseResults_spec {results : List DetectionResult}
    (hb : ∀ r ∈ results, r.matched = true → 72 ≤ r.confidence ∧ r.confidence ≤ 98)
    (hne : results.filter (fun r => r.matched) ≠ []) :
    (fuseResults results).isDerivative = true ∧
    (fuseResults results).confidence =
      min 99 (maxConf (results.filter (fun r => r.matched)) +
        agreementBonus (results.filter (fun r => r.matched)).length) ∧
    72 ≤ (fuseResults results).confidence ∧
    (fuseResults results).confidence ≤ 99 := by
  have hsortperm : List.Perm (List.insertionSort confGe (results.filter (fun r => r.matched)))
      (results.filter (fun r => r.matched)) := List.perm_insertionSort _ _
  have hsorted := List.sorted_insertionSort confGe (results.filter (fun r => r.matched))
  cases hsort : List.insertionSort confGe (results.filter (fun r => r.matched)) with
  | nil =>
    rw [hsort] at hsortperm
    exact absurd hsortperm.symm.eq_nil hne
  | cons best rest =>
    rw [hsort] at hsortperm hsorted
    have hbestmem : best ∈ results.filter (fun r => r.matched) :=
      hsortperm.mem_iff.mp (List.mem_cons_self best rest)
    have hmax : ∀ x ∈ results.filter (fun r => r.matched),
        x.confidence ≤ best.confidence := by
      intro x hx
      rcases List.mem_cons.mp (hsortperm.mem_iff.mpr hx) with rfl | hx'
      · exact le_rfl
      · exact (List.sorted_cons.mp hsorted).1 x hx'
    have hmaxconf : maxConf (results.filter (fun r => r.matched)) = best.confidence := by
      refine le_antisymm (foldrMax_le ?_) (le_foldrMax (List.mem_map_of_mem _ hbestmem))
      intro y hy
      rcases List.mem_map.mp hy with ⟨r, hr, rfl⟩
      exact hmax r hr
    have hbmatched : best.matched = true := by
      have := List.mem_filter.mp hbestmem
      simpa using this.2
    have hbconf := hb best (List.mem_filter.mp hbestmem).1 hbmatched
    have hval : fuseResults results = ⟨true, best.method,
        (if 4 ≤ (results.filter (fun r => r.matched)).length then
          min 99 (best.confidence + 8)
        else if 3 ≤ (results.filter (fun r => r.matched)).length then
          min 99 (best.confidence + 5)
        else if 2 ≤ (results.filter (fun r => r.matched)).length then
          min 99 (best.confidence + 2)
        else best.confidence),
        best.details, best :: rest, (results.filter (fun r => r.matched)).length⟩ := by
      unfold fuseResults
      dsimp only
      rw [if_neg (by simpa [List.isEmpty_iff] using hne), hsort]
    have hlenpos : 0 < (results.filter (fun r => r.matched)).length :=
      List.length_pos.mpr hne
    rw [hval]
    refine ⟨rfl, ?_, ?_⟩
    · show (if 4 ≤ _ then _ else _) = _
      unfold agreementBonus
      rw [hmaxconf]
      by_cases h4 : 4 ≤ (results.filter (fun r => r.matched)).length
      · rw [if_pos h4, if_pos h4]
      · rw [if_neg h4, if_neg h4]
        by_cases h3 : 3 ≤ (results.filter (fun r => r.matched)).length
        · rw [if_pos h3, if_pos h3]
        · rw [if_neg h3, if_neg h3]
          by_cases h2 : 2 ≤ (results.filter (fun r => r.matched)).length
          · rw [if_pos h2, if_pos h2]
          · rw [if_neg h2, if_neg h2]
            omega
    · show 72 ≤ (if 4 ≤ _ then _ else _) ∧ (if 4 ≤ _ then _ else _) ≤ 99
      split
      · omega
      · split
        · omega
        · split
          · omega
          · omega

/-! ## Guards on identical normalized symbols -/

lemma filter_map_comm (l : List Char) :
    (l.filter isAsciiAlpha).map jsToLower = (l.map jsToLower).filter isLowerAlpha := by
  induction l with
  | nil => rfl
  | cons c rest ih =>
    by_cases hc : isAsciiAlpha c = true <;>
      simp [List.filter_cons, hc, isLowerAlpha_jsToLower, ih]

/-- The lowercased alphabetic part of a string is a function of its
normalization: `phoneticMatch`'s case-insensitive comparison of
alpha-stripped symbols is determined by `normalizeL`. -/
lemma lowerAlpha_from_normalize (l : List Char) :
    (l.filter isAsciiAlpha).map jsToLower = (normalizeL l).filter isLowerAlpha := by
  rw [filter_map_comm]
  unfold normalizeL
  rw [List.filter_filter]
  refine List.filter_congr ?_
  intro c _
  unfold isLowerAlnum
  cases hc : isLowerAlpha c <;> simp [hc]

lemma normalizeL_map_lower (l : List Char) :
    normalizeL (l.map jsToLower) = normalizeL l := by
  unfold normalizeL
  refine congrArg _ ?_
  rw [List.map_map]
  exact List.map_congr_left fun c _ => jsToLower_idem c

lemma phoneticMatch_guard (rn rs tn ts : String)
    (h : normalizeL rs.data = normalizeL ts.data) :
    (phoneticMatch rn rs tn ts).matched = false := by
  have heq : (rs.data.filter isAsciiAlpha).map jsToLower =
      (ts.data.filter isAsciiAlpha).map jsToLower := by
    rw [lowerAlpha_from_normalize, lowerAlpha_from_normalize, h]
  unfold phoneticMatch
  dsimp only
  split
  all_goals try rfl

/-- C1 (amended): of the 12 detection methods, the ten symbol-comparing
ones (direct, pattern, boundary, misspelling, phonetic, leet, ngram,
fuzzy, reverse, substring) each independently return a non-match whenever
the normalized runner symbol equals the normalized candidate symbol.
`themeMatch` and `derivativeKeywordMatch` do not carry this guard, and
`detectDerivative(T.name, T.symbol, T.name, T.symbol)` can be a positive
match (see the counterexample theorem). -/
theorem symbol_methods_reject_equal_normalized (rn rs tn ts : String)
    (h : normalize rs = normalize ts) :
    (directMatch rn rs tn ts).matched = false ∧
    (patternMatch rs tn ts).matched = false ∧
    (wordBoundaryMatch rs tn ts).matched = false ∧
    (misspellingMatch rs ts).matched = false ∧
    (phoneticMatch rn rs tn ts).matched = false ∧
    (leetMatch rs ts).matched = false ∧
    (ngramMatch rs ts).matched = false ∧
    (fuzzyMatch rs ts).matched = false ∧
    (reverseMatch rs ts).matched = false ∧
    (substringMatch rs ts tn).matched = false := by
  have hL : normalizeL rs.data = normalizeL ts.data := congrArg String.data h
  refine ⟨?_, ?_, ?_, ?_, phoneticMatch_guard rn rs tn ts hL, ?_, ?_, ?_, ?_, ?_⟩
  · unfold directMatch; dsimp only; rw [if_pos hL]
  · unfold patternMatch; dsimp only; rw [if_pos (Or.inl hL)]
  · unfold wordBoundaryMatch; dsimp only; rw [if_pos (Or.inl hL)]
  · unfold misspellingMatch; dsimp only; rw [if_pos (Or.inl hL)]
  · unfold leetMatch; dsimp only
    rw [if_pos (Or.inl (by rw [normalizeL_map_lower]; exact hL))]
  · unfold ngramMatch; dsimp only; rw [if_pos (Or.inl hL)]
  · unfold fuzzyMatch; dsimp only; rw [if_pos (Or.inl hL)]
  · unfold reverseMatch; dsimp only; rw [if_pos (Or.inl hL)]
  · unfold substringMatch; dsimp only; rw [if_pos (Or.inl hL)]

/-- Witness for the amended C1 theorem at a concrete input with equal
normalized symbols. -/
theorem symbol_methods_reject_equal_normalized_witness :
    normalize "PE-PE" = normalize "pepe" ∧
    ((directMatch "Pepe" "PE-PE" "Pepe Coin" "pepe").matched = false ∧
     (patternMatch "PE-PE" "Pepe Coin" "pepe").matched = false ∧
     (wordBoundaryMatch "PE-PE" "Pepe Coin" "pepe").matched = false ∧
     (misspellingMatch "PE-PE" "pepe").matched = false ∧
     (phoneticMatch "Pepe" "PE-PE" "Pepe Coin" "pepe").matched = false ∧
     (leetMatch "PE-PE" "pepe").matched = false ∧
     (ngramMatch "PE-PE" "pepe").matched = false ∧
     (fuzzyMatch "PE-PE" "pepe").matched = false ∧
     (reverseMatch "PE-PE" "pepe").matched = false ∧
     (substringMatch "PE-PE" "pepe" "Pepe Coin").matched = false) :=
  ⟨by decide,
    symbol_methods_reject_equal_normalized "Pepe" "PE-PE" "Pepe Coin" "pepe" (by decide)⟩

/-- C1 counterexample: `themeMatch` carries no identical-symbol guard, so a
token whose text contains a theme's canonical keyword matches itself, and
`detectDerivative` reports the self-pair as a positive match. -/
theorem self_pair_positive_counterexample :
    (themeMatch "Pepe" "PEPE" "Pepe" "PEPE").matched = true ∧
    (detectDerivative "Pepe" "PEPE" "Pepe" "PEPE").isDerivative = true :=
  ⟨by decide, by decide⟩

/-- C3: when at least one method matches, the final confidence is the top
per-method confidence plus the agreement bonus (+8 for at least 4 matched
methods, +5 for exactly 3, +2 for exactly 2, +0 for one), clamped at 99;
consequently, with the same top confidence, a 4-method pair scores at
least as high as a 1-method pair. -/
theorem detectDerivative_agreement_boost :
    (∀ rn rs tn ts : String,
      (runAllMethods rn rs tn ts).filter (fun r => r.matched) ≠ [] →
      (detectDerivative rn rs tn ts).confidence =
        min 99 (maxConf ((runAllMethods rn rs tn ts).filter (fun r => r.matched)) +
          agreementBonus
            (((runAllMethods rn rs tn ts).filter (fun r => r.matched)).length))) ∧
    (∀ rn1 rs1 tn1 ts1 rn2 rs2 tn2 ts2 : String,
      4 ≤ ((runAllMethods rn1 rs1 tn1 ts1).filter (fun r => r.matched)).length →
      ((runAllMethods rn2 rs2 tn2 ts2).filter (fun r => r.matched)).length = 1 →
      maxConf ((runAllMethods rn1 rs1 tn1 ts1).filter (fun r => r.matched)) =
        maxConf ((runAllMethods rn2 rs2 tn2 ts2).filter (fun r => r.matched)) →
      (detectDerivative rn2 rs2 tn2 ts2).confidence ≤
        (detectDerivative rn1 rs1 tn1 ts1).confidence) := by
  constructor
  · intro rn rs tn ts hne
    exact (fuseResults_spec (runAllMethods_bounds rn rs tn ts) hne).2.1
  · intro rn1 rs1 tn1 ts1 rn2 rs2 tn2 ts2 h4 h1 hmax
    have hne1 : (runAllMethods rn1 rs1 tn1 ts1).filter (fun r => r.matched) ≠ [] := by
      intro hnil; rw [hnil] at h4; simp at h4
    have hne2 : (runAllMethods rn2 rs2 tn2 ts2).filter (fun r => r.matched) ≠ [] := by
      intro hnil; rw [hnil] at h1; simp at h1
    have e1 := (fuseResults_spec (runAllMethods_bounds rn1 rs1 tn1 ts1) hne1).2.1
    have e2 := (fuseResults_spec (runAllMethods_bounds rn2 rs2 tn2 ts2) hne2).2.1
    unfold detectDerivative
    rw [e1, e2, hmax]
    have hb1 : agreementBonus
        ((runAllMethods rn1 rs1 tn1 ts1).filter (fun r => r.matched)).length = 8 := by
      unfold agreementBonus; rw [if_pos h4]
    have hb2 : agreementBonus
        ((runAllMethods rn2 rs2 tn2 ts2).filter (fun r => r.matched)).length = 0 := by
      rw [h1]; rfl
    rw [hb1, hb2]
    omega

/-- Witness for C3: the boost formula evaluated on a concrete 6-method
pair, and the monotonicity on a concrete 4-method pair (top 78, final 86)
against a concrete 1-method pair (top 78, final 78). -/
theorem detectDerivative_agreement_boost_witness :
    (detectDerivative "Pepe" "PEPE" "Baby Pepe Token" "BABYPEPE").confidence =
      min 99 (maxConf ((runAllMethods "Pepe" "PEPE" "Baby Pepe Token" "BABYPEPE").filter
          (fun r => r.matched)) +
        agreementBonus (((runAllMethods "Pepe" "PEPE" "Baby Pepe Token" "BABYPEPE").filter
          (fun r => r.matched)).length)) ∧
    (detectDerivative "Dragon" "DRAGON" "Baby Drag" "BDRG").confidence ≤
      (detectDerivative "Pepes" "PEPES" "King Pep" "EPEPS").confidence :=
  ⟨detectDerivative_agreement_boost.1 "Pepe" "PEPE" "Baby Pepe Token" "BABYPEPE" (by decide),
   detectDerivative_agreement_boost.2 "Pepes" "PEPES" "King Pep" "EPEPS"
     "Dragon" "DRAGON" "Baby Drag" "BDRG" (by decide) (by decide) (by decide)⟩

/-- C10: `isDerivative` holds exactly when the confidence is non-zero, and
a positive result always carries a confidence between 72 (the lowest
method base confidence, from `themeMatch`) and 99 (the clamp); 100 is
never reached. -/
theorem detectDerivative_confidence_range (rn rs tn ts : String) :
    ((detectDerivative rn rs tn ts).isDerivative = true ↔
      (detectDerivative rn rs tn ts).confidence ≠ 0) ∧
    ((detectDerivative rn rs tn ts).isDerivative = true →
      72 ≤ (detectDerivative rn rs tn ts).confidence ∧
      (detectDerivative rn rs tn ts).confidence ≤ 99) := by
  unfold detectDerivative
  by_cases hf : (runAllMethods rn rs tn ts).filter (fun r => r.matched) = []
  · rw [fuseResults_of_empty hf]
    refine ⟨⟨fun h => absurd h (by decide), fun h => absurd rfl h⟩,
      fun h => absurd h (by decide)⟩
  · have hs := fuseResults_spec (runAllMethods_bounds rn rs tn ts) hf
    refine ⟨⟨fun _ => ?_, fun _ => hs.1⟩, fun _ => ⟨hs.2.2.1, hs.2.2.2⟩⟩
    have := hs.2.2.1
    omega

/-- Witness for C10 at a concrete positive pair. -/
theorem detectDerivative_confidence_range_witness :
    (detectDerivative "Pepe" "PEPE" "Baby Pepe Token" "BABYPEPE").confidence ≠ 0 ∧
    (72 ≤ (detectDerivative "Pepe" "PEPE" "Baby Pepe Token" "BABYPEPE").confidence ∧
      (detectDerivative "Pepe" "PEPE" "Baby Pepe Token" "BABYPEPE").confidence ≤ 99) :=
  ⟨(detectDerivative_confidence_range "Pepe" "PEPE" "Baby Pepe Token" "BABYPEPE").1.mp
      (by decide),
   (detectDerivative_confidence_range "Pepe" "PEPE" "Baby Pepe Token" "BABYPEPE").2
      (by decide)⟩

/-- C6: a one-character runner symbol matches nothing on this candidate:
every method's minimum-length guard rejects it, and no theme or keyword
fires, so the full detector returns a non-match with confidence 0. -/
theorem detect_short_symbol_guard :
    (detectDerivative "X Corp" "X" "Anything" "XYZABC").isDerivative = false ∧
    (detectDerivative "X Corp" "X" "Anything" "XYZABC").confidence = 0 :=
  ⟨by decide, by decide⟩

/-- C7: the single-pair detector and the batch matcher are pure functions
of their inputs — the embedding contains no state, randomness or I/O, so
repeated invocations on the same inputs give identical results (including
identical order of the batch match list). -/
theorem engine_deterministic :
    (∀ rn rs tn ts : String,
      detectDerivative rn rs tn ts = detectDerivative rn rs tn ts) ∧
    (∀ runners tokens : List TokenInfo,
      findDerivatives runners tokens = findDerivatives runners tokens) :=
  ⟨fun _ _ _ _ => rfl, fun _ _ => rfl⟩

/-! ## Batch matcher properties (C2, C4) -/

lemma detect_not_deriv_conf {rn rs tn ts : String}
    (h : (detectDerivative rn rs tn ts).isDerivative = false) :
    (detectDerivative rn rs tn ts).confidence = 0 := by
  unfold detectDerivative at h ⊢
  by_cases hf : (runAllMethods rn rs tn ts).filter (fun r => r.matched) = []
  · rw [fuseResults_of_empty hf]
    rfl
  · have hs := fuseResults_spec (runAllMethods_bounds rn rs tn ts) hf
    exact absurd (hs.1.symm.trans h) (by decide)

/-- Every `some` result of the inner loop is either the incoming
accumulator or a match built from one of the scanned runners. -/
lemma bestForLoop_mem (token : TokenInfo) :
    ∀ (rs : List TokenInfo) (acc : Option DerivativeMatch) (m : DerivativeMatch),
      bestForLoop token rs acc = some m →
      acc = some m ∨
      (m.token = token ∧ ∃ r ∈ rs, r.id ≠ token.id ∧
        (detectDerivative r.name r.symbol token.name token.symbol).isDerivative = true ∧
        m = mkMatch token r (detectDerivative r.name r.symbol token.name token.symbol)) := by
  intro rs
  induction rs with
  | nil => intro acc m h; exact Or.inl h
  | cons r rest ih =>
    intro acc m h
    rw [bestForLoop] at h
    dsimp only at h
    by_cases hid : r.id = token.id
    · rw [if_pos hid] at h
      rcases ih acc m h with h' | ⟨htok, r', hr', hprops⟩
      · exact Or.inl h'
      · exact Or.inr ⟨htok, r', List.mem_cons_of_mem r hr', hprops⟩
    · rw [if_neg hid] at h
      by_cases hder :
          (detectDerivative r.name r.symbol token.name token.symbol).isDerivative = true
      · rw [if_pos hder] at h
        cases acc with
        | none =>
          dsimp only at h
          rcases ih _ m h with h' | ⟨htok, r', hr', hprops⟩
          · injection h' with h''
            subst h''
            exact Or.inr ⟨rfl, r, List.mem_cons_self r rest, hid, hder, rfl⟩
          · exact Or.inr ⟨htok, r', List.mem_cons_of_mem r hr', hprops⟩
        | some b =>
          dsimp only at h
          by_cases hlt : b.confidence <
              (detectDerivative r.name r.symbol token.name token.symbol).confidence
          · rw [if_pos hlt] at h
            rcases ih _ m h with h' | ⟨htok, r', hr', hprops⟩
            · injection h' with h''
              subst h''
              exact Or.inr ⟨rfl, r, List.mem_cons_self r rest, hid, hder, rfl⟩
            · exact Or.inr ⟨htok, r', List.mem_cons_of_mem r hr', hprops⟩
          · rw [if_neg hlt] at h
            rcases ih _ m h with h' | ⟨htok, r', hr', hprops⟩
            · exact Or.inl h'
            · exact Or.inr ⟨htok, r', List.mem_cons_of_mem r hr', hprops⟩
      · rw [if_neg hder] at h
        rcases ih acc m h with h' | ⟨htok, r', hr', hprops⟩
        · exact Or.inl h'
        · exact Or.inr ⟨htok, r', List.mem_cons_of_mem r hr', hprops⟩

/-- The result of the inner loop dominates the confidence of every scanned
eligible runner and of the incoming accumulator. -/
lemma bestForLoop_max (token : TokenInfo) :
    ∀ (rs : List TokenInfo) (acc : Option DerivativeMatch) (m : DerivativeMatch),
      bestForLoop token rs acc = some m →
      (∀ r ∈ rs, r.id ≠ token.id →
        (detectDerivative r.name r.symbol token.name token.symbol).confidence ≤
          m.confidence) ∧
      (∀ b, acc = some b → b.confidence ≤ m.confidence) := by
  intro rs
  induction rs with
  | nil =>
    intro acc m h
    rw [bestForLoop] at h
    refine ⟨fun r hr => absurd hr (List.not_mem_nil r), fun b hb => ?_⟩
    rw [h] at hb
    injection hb with e
    rw [e]
  | cons r rest ih =>
    intro acc m h
    rw [bestForLoop] at h
    dsimp only at h
    by_cases hid : r.id = token.id
    · rw [if_pos hid] at h
      obtain ⟨hrest, hacc⟩ := ih acc m h
      refine ⟨?_, hacc⟩
      intro r' hr' hne
      rcases List.mem_cons.mp hr' with rfl | hmem
      · exact absurd hid hne
      · exact hrest r' hmem hne
    · rw [if_neg hid] at h
      by_cases hder :
          (detectDerivative r.name r.symbol token.name token.symbol).isDerivative = true
      · rw [if_pos hder] at h
        cases acc with
        | none =>
          dsimp only at h
          obtain ⟨hrest, hacc⟩ := ih _ m h
          have hnew := hacc _ rfl
          refine ⟨?_, fun b hb => by cases hb⟩
          intro r' hr' hne
          rcases List.mem_cons.mp hr' with rfl | hmem
          · exact hnew
          · exact hrest r' hmem hne
        | some b =>
          dsimp only at h
          by_cases hlt : b.confidence <
              (detectDerivative r.name r.symbol token.name token.symbol).confidence
          · rw [if_pos hlt] at h
            obtain ⟨hrest, hacc⟩ := ih _ m h
            have hnew := hacc _ rfl
            refine ⟨?_, ?_⟩
            · intro r' hr' hne
              rcases List.mem_cons.mp hr' with rfl | hmem
              · exact hnew
              · exact hrest r' hmem hne
            · intro b' hb'
              injection hb' with e
              subst e
              exact le_trans (le_of_lt hlt) hnew
          · rw [if_neg hlt] at h
            obtain ⟨hrest, hacc⟩ := ih _ m h
            have hb := hacc _ rfl
            refine ⟨?_, ?_⟩
            · intro r' hr' hne
              rcases List.mem_cons.mp hr' with rfl | hmem
              · exact le_trans (Nat.le_of_not_lt hlt) hb
              · exact hrest r' hmem hne
            · intro b' hb'
              injection hb' with e
              subst e
              exact hb
      · rw [if_neg hder] at h
        obtain ⟨hrest, hacc⟩ := ih acc m h
        refine ⟨?_, hacc⟩
        intro r' hr' hne
        rcases List.mem_cons.mp hr' with rfl | hmem
        · have h0 : (detectDerivative r'.name r'.symbol token.name token.symbol).confidence = 0 :=
            detect_not_deriv_conf (by simpa using hder)
          rw [h0]
          exact Nat.zero_le _
        · exact hrest r' hmem hne

/-- C2: the batch matcher never links a token to a runner with its own id
(the identity exclusion is checked before any comparison for the pair). -/
theorem findDerivatives_no_self_match (runners tokens : List TokenInfo) :
    ∀ m ∈ findDerivatives runners tokens, m.runner.id ≠ m.token.id := by
  intro m hm
  unfold findDerivatives at hm
  have hm' : m ∈ tokens.filterMap (fun token => bestForLoop token runners none) :=
    (List.perm_insertionSort matchGe _).mem_iff.mp hm
  rcases List.mem_filterMap.mp hm' with ⟨t, ht, hbest⟩
  rcases bestForLoop_mem t runners none m hbest with h | ⟨htok, r, hr, hne, hder, rfl⟩
  · cases h
  · exact hne

def witnessRunners : List TokenInfo := [⟨"r1", "Pepe", "PEPE", 1000⟩]

def witnessTokens : List TokenInfo :=
  [⟨"t1", "Baby Pepe Token", "BABYPEPE", 5⟩, ⟨"t2", "Zzz", "QQQ", 1⟩]

/-- Witness for C2 on a concrete batch with a non-empty result. -/
theorem findDerivatives_no_self_match_witness :
    ((findDerivatives witnessRunners witnessTokens).headI).runner.id ≠
      ((findDerivatives witnessRunners witnessTokens).headI).token.id :=
  findDerivatives_no_self_match witnessRunners witnessTokens _ (by decide)

lemma countP_filterMap_token_le (runners : List TokenInfo) (t : TokenInfo) :
    ∀ tokens : List TokenInfo,
      ((tokens.filterMap (fun tk => bestForLoop tk runners none)).countP
        (fun m => m.token = t)) ≤ tokens.countP (fun tk => tk = t) := by
  intro tokens
  induction tokens with
  | nil => exact le_rfl
  | cons tk rest ih =>
    rw [List.filterMap_cons, List.countP_cons]
    cases hb : bestForLoop tk runners none with
    | none => exact le_trans ih (Nat.le_add_right _ _)
    | some m =>
      rw [List.countP_cons]
      have htok : m.token = tk := by
        rcases bestForLoop_mem tk runners none m hb with h | ⟨htok, -⟩
        · cases h
        · exact htok
      by_cases hmt : m.token = t
      · have htk : tk = t := htok ▸ hmt
        rw [if_pos (decide_eq_true hmt), if_pos (decide_eq_true htk)]
        omega
      · rw [if_neg (by simpa using hmt)]
        exact le_trans (by omega) (Nat.le_add_right _ _)

/-- C4: the batch matcher emits at most one match per candidate
occurrence, each emitted match pairs the candidate with an eligible runner
of maximal aggregate confidence, candidates for which no runner produced a
positive aggregate result are omitted, and the output is sorted by
confidence descending. -/
theorem findDerivatives_batch_spec (runners tokens : List TokenInfo) :
    List.Sorted matchGe (findDerivatives runners tokens) ∧
    (∀ t : TokenInfo,
      ((findDerivatives runners tokens).countP (fun m => m.token = t)) ≤
        tokens.countP (fun tk => tk = t)) ∧
    (∀ m ∈ findDerivatives runners tokens,
      m.token ∈ tokens ∧ m.runner ∈ runners ∧ m.runner.id ≠ m.token.id ∧
      (detectDerivative m.runner.name m.runner.symbol
        m.token.name m.token.symbol).isDerivative = true ∧
      m.confidence = (detectDerivative m.runner.name m.runner.symbol
        m.token.name m.token.symbol).confidence ∧
      (∀ r ∈ runners, r.id ≠ m.token.id →
        (detectDerivative r.name r.symbol m.token.name m.token.symbol).confidence ≤
          m.confidence)) ∧
    (∀ t ∈ tokens,
      (∀ r ∈ runners, r.id ≠ t.id →
        (detectDerivative r.name r.symbol t.name t.symbol).isDerivative = false) →
      ∀ m ∈ findDerivatives runners tokens, m.token ≠ t) := by
  have hperm := List.perm_insertionSort matchGe
    (tokens.filterMap (fun token => bestForLoop token runners none))
  refine ⟨List.sorted_insertionSort matchGe _, ?_, ?_, ?_⟩
  · intro t
    unfold findDerivatives
    rw [hperm.countP_eq]
    exact countP_filterMap_token_le runners t tokens
  · intro m hm
    unfold findDerivatives at hm
    have hm' := hperm.mem_iff.mp hm
    rcases List.mem_filterMap.mp hm' with ⟨t, ht, hbest⟩
    rcases bestForLoop_mem t runners none m hbest with h | ⟨htok, r, hr, hne, hder, heqm⟩
    · cases h
    · obtain ⟨hmaxr, -⟩ := bestForLoop_max t runners none m hbest
      subst heqm
      exact ⟨htok ▸ ht, hr, hne, hder, rfl, hmaxr⟩
  · intro t ht hnone m hm hmt
    unfold findDerivatives at hm
    have hm' := hperm.mem_iff.mp hm
    rcases List.mem_filterMap.mp hm' with ⟨t', ht', hbest⟩
    rcases bestForLoop_mem t' runners none m hbest with h | ⟨htok, r, hr, hne, hder, heqm⟩
    · cases h
    · have htt : t' = t := by rw [← htok]; exact hmt
      subst htt
      exact absurd hder (by rw [hnone r hr hne]; decide)

/-- Witness for C4 on a concrete batch: one matching candidate and one
candidate with no positive runner. -/
theorem findDerivatives_batch_spec_witness :
    List.Sorted matchGe (findDerivatives witnessRunners witnessTokens) ∧
    ((findDerivatives witnessRunners witnessTokens).headI).runner ∈ witnessRunners ∧
    ((findDerivatives witnessRunners witnessTokens).headI).token ≠
      (⟨"t2", "Zzz", "QQQ", 1⟩ : TokenInfo) :=
  ⟨(findDerivatives_batch_spec witnessRunners witnessTokens).1,
   ((findDerivatives_batch_spec witnessRunners witnessTokens).2.2.1 _ (by decide)).2.1,
   (findDerivatives_batch_spec witnessRunners witnessTokens).2.2.2
     ⟨"t2", "Zzz", "QQQ", 1⟩ (by decide) (by decide) _ (by decide)⟩

end DerivEngine
